import Mathlib

/-!
Verification of the convolution core of `src/vw/Image/Convolution.h`
(VisionWorkbench).

The development shallowly embeds the two convolution view classes and the
weighted-sum primitives of that header.  Pixel and kernel element types are
modelled by a single commutative ring `α` (the C++ code promotes the two
element types to a common product type; all claims are about values, not
about the promotion machinery).  `int32` coordinate arithmetic is modelled
by `Int` (no overflow occurs at the magnitudes the claims quantify over),
grid extents by the same `Int` fields the C++ accessors return, and the
one place where unsigned `size_t` wrap-around and narrowing to `int32` is
observable (the separable view's default origin) is modelled explicitly
with `% 2 ^ 64` and a wrap-to-`int32` conversion.

Collaborator code that is part of the repository but not present under
`src/` (ImageView buffers, `edge_extend`, `crop`, `transpose`,
`Rotate180View`, and the `vw::rasterize` driver) is modelled from the
spec; each such definition carries a doc comment saying so.
-/

variable {α : Type} [CommRing α]

/-- Left fold of `+ f i` over `0, 1, ..., n-1` starting from `0`; the shape of
the accumulation loops in `correlate_1d_at_point` and
`correlate_2d_at_point`. -/
def sumRange (f : Nat → α) (n : Nat) : α :=
  (List.range n).foldl (fun acc i => acc + f i) 0

/-- `correlate_1d_at_point` (Convolution.h lines 56-70): starting from a
default-constructed, validated accumulator, adds `kernel i * src i` for
`i = 0, ..., n-1`, advancing the source accessor one column at a time. -/
def correlate_1d_at_point (src : Nat → α) (kernel : Nat → α) (n : Nat) : α :=
  (List.range n).foldl (fun acc i => acc + kernel i * src i) 0

/-- `correlate_2d_at_point` (Convolution.h lines 72-93): rows outer, columns
inner, accumulating `kernel i j * src i j` in row-major order. -/
def correlate_2d_at_point (src : Nat → Nat → α) (kernel : Nat → Nat → α)
    (cols rows : Nat) : α :=
  (List.range rows).foldl
    (fun acc j => (List.range cols).foldl (fun acc2 i => acc2 + kernel i j * src i j) acc) 0

theorem foldl_add_init (f : Nat → α) (l : List Nat) (c : α) :
    l.foldl (fun acc i => acc + f i) c = c + l.foldl (fun acc i => acc + f i) 0 := by
  induction l generalizing c with
  | nil => simp
  | cons hd tl ih => simp only [List.foldl_cons]; rw [ih (c + f hd), ih (0 + f hd)]; ring

theorem sumRange_zero (f : Nat → α) : sumRange f 0 = 0 := rfl

theorem sumRange_succ (f : Nat → α) (n : Nat) :
    sumRange f (n + 1) = sumRange f n + f n := by
  unfold sumRange
  rw [List.range_succ, List.foldl_append]
  simp only [List.foldl_cons, List.foldl_nil]

theorem sumRange_congr {f g : Nat → α} {n : Nat} (h : ∀ i, i < n → f i = g i) :
    sumRange f n = sumRange g n := by
  induction n with
  | zero => rfl
  | succ m ih =>
    rw [sumRange_succ, sumRange_succ, ih (fun i hi => h i (Nat.lt_succ_of_lt hi)),
      h m (Nat.lt_succ_self m)]

theorem sumRange_eq_finsetSum (f : Nat → α) (n : Nat) :
    sumRange f n = (Finset.range n).sum f := by
  induction n with
  | zero => rfl
  | succ m ih => rw [sumRange_succ, Finset.sum_range_succ, ih]

theorem sumRange_reflect (f : Nat → α) (n : Nat) :
    sumRange (fun i => f (n - 1 - i)) n = sumRange f n := by
  rw [sumRange_eq_finsetSum, sumRange_eq_finsetSum]
  exact Finset.sum_range_reflect f n

theorem sumRange_one (f : Nat → α) : sumRange f 1 = f 0 := by
  rw [sumRange_succ, sumRange_zero, zero_add]

theorem correlate_1d_eq_sumRange (src kernel : Nat → α) (n : Nat) :
    correlate_1d_at_point src kernel n = sumRange (fun i => kernel i * src i) n := rfl

theorem correlate_2d_eq_sumRange (src kernel : Nat → Nat → α) (cols rows : Nat) :
    correlate_2d_at_point src kernel cols rows =
      sumRange (fun j => sumRange (fun i => kernel i j * src i j) cols) rows := by
  induction rows with
  | zero => rfl
  | succ m ih =>
    unfold correlate_2d_at_point at ih ⊢
    rw [List.range_succ, List.foldl_append, sumRange_succ, ← ih]
    simp only [List.foldl_cons, List.foldl_nil]
    rw [foldl_add_init (fun i => kernel i m * src i m)]
    rfl

theorem correlate_2d_congr {s1 s2 k1 k2 : Nat → Nat → α} {cols rows : Nat}
    (hs : ∀ i j, i < cols → j < rows → s1 i j = s2 i j)
    (hk : ∀ i j, i < cols → j < rows → k1 i j = k2 i j) :
    correlate_2d_at_point s1 k1 cols rows = correlate_2d_at_point s2 k2 cols rows := by
  rw [correlate_2d_eq_sumRange, correlate_2d_eq_sumRange]
  exact sumRange_congr fun j hj =>
    sumRange_congr fun i hi => by rw [hs i j hi hj, hk i j hi hj]

/-- An image: a 3-dimensional grid indexed by (column, row, plane), with
`int32` extents and random pixel access.  Access is modelled as a total
function; only values at in-range coordinates are meaningful (raw access
outside the extents corresponds to reading arbitrary memory in the C++). -/
structure Image (α : Type) where
  cols : Int
  rows : Int
  planes : Int
  pixel : Int → Int → Int → α

/-- A 2D grid of kernel weights with its own extents. -/
structure Kern (α : Type) where
  cols : Nat
  rows : Nat
  weight : Nat → Nat → α

/-- Modelled from the spec: `Rotate180View` (Manipulation.h, not under `src/`)
is the kernel orientation adapter, a read-only index remap answering
`(i, j) ↦ child (cols-1-i, rows-1-j)` with unchanged extents (spec section 4.2). -/
def rot180 (k : Kern α) : Kern α :=
  { cols := k.cols, rows := k.rows,
    weight := fun i j => k.weight (k.cols - 1 - i) (k.rows - 1 - j) }

/-- Modelled from the spec: `edge_extend` (EdgeExtension.h, not under `src/`)
wraps a source image in an edge-extension policy: in-range coordinates pass
through to the source pixel, out-of-range coordinates are answered by the
policy (spec sections 3 and 6; planes are not remapped). The policy itself is
an arbitrary function of the image and the coordinate. -/
def edge_extend (img : Image α) (edge : Image α → Int → Int → Int → α) :
    Int → Int → Int → α :=
  fun x y p =>
    if 0 ≤ x ∧ x < img.cols ∧ 0 ≤ y ∧ y < img.rows then img.pixel x y p
    else edge img x y p

/-- The zero-padding edge policy: out-of-range pixels read as zero. -/
def zeroEdge : Image α → Int → Int → Int → α := fun _ _ _ _ => 0

/-- `NoEdgeExtension`: the no-op policy; coordinates are passed through to the
child unchanged (raw access).  Modelled from the spec ("a no-op edge
policy", spec section 4.3). -/
def noEdge : Image α → Int → Int → Int → α := fun img x y p => img.pixel x y p

/-- A rectangular region `BBox2i`: minimum corner and size. -/
structure BBox where
  minx : Int
  miny : Int
  width : Int
  height : Int

/-- Modelled from the spec: assigning an edge-extended view restricted to a
rectangle into a fresh `ImageView` buffer ("materialize that expanded
rectangle once through the edge-extension policy into a plain buffer",
spec section 4.3).  The buffer has the rectangle's extents and the source's
plane count; cells outside the allocation are modelled as `0` (reading or
writing them is undefined behavior in the C++ and is never relied upon
where the code is defined). -/
def materializeEdge (img : Image α) (edge : Image α → Int → Int → Int → α)
    (b : BBox) : Image α :=
  { cols := b.width, rows := b.height, planes := img.planes,
    pixel := fun x y p =>
      if 0 ≤ x ∧ x < b.width ∧ 0 ≤ y ∧ y < b.height ∧ 0 ≤ p ∧ p < img.planes
      then edge_extend img edge (b.minx + x) (b.miny + y) p
      else 0 }

/-- Modelled from the spec: `crop` (Manipulation.h, not under `src/`) is a
view of the rectangle of size `cols × rows` whose top-left corner sits at
`(dx, dy)` in the child; access is a pure coordinate shift. -/
def crop (img : Image α) (dx dy : Int) (cols rows : Int) : Image α :=
  { cols := cols, rows := rows, planes := img.planes,
    pixel := fun x y p => img.pixel (x + dx) (y + dy) p }

/-- Modelled from the spec: `transpose` (Manipulation.h, not under `src/`)
swaps the column and row axes. -/
def Image.transposeView (img : Image α) : Image α :=
  { cols := img.rows, rows := img.cols, planes := img.planes,
    pixel := fun x y p => img.pixel y x p }

/-- `ConvolutionView` (Convolution.h lines 107-175): a lazily evaluated 2D
convolution of `image` with `kernel`, origin `(ci, cj)`, edge policy
`edge`.  The C++ member `m_kernel` stores `Rotate180View<KernelT>` of the
constructor's kernel; here the raw kernel is stored and `rot180` is applied
at each use, which is the same thing. -/
structure ConvolutionView (α : Type) where
  image : Image α
  edge : Image α → Int → Int → Int → α
  kernel : Kern α
  ci : Int
  cj : Int

/-- Accessor `cols()` (line 135): the source image's column count. -/
def ConvolutionView.cols (v : ConvolutionView α) : Int := v.image.cols

/-- Accessor `rows()` (line 138): the source image's row count. -/
def ConvolutionView.rows (v : ConvolutionView α) : Int := v.image.rows

/-- Accessor `planes()` (line 141): the source image's plane count. -/
def ConvolutionView.planes (v : ConvolutionView α) : Int := v.image.planes

/-- The centered constructor (lines 131-132): origin defaults to
`((kernel.cols()-1)/2, (kernel.rows()-1)/2)` in truncating `int32`
division. -/
def ConvolutionView.centered (image : Image α) (kernel : Kern α)
    (edge : Image α → Int → Int → Int → α) : ConvolutionView α :=
  { image := image, edge := edge, kernel := kernel,
    ci := Int.tdiv ((kernel.cols : Int) - 1) 2,
    cj := Int.tdiv ((kernel.rows : Int) - 1) 2 }

/-- The fast branch of `operator()` (lines 152-153): the 2D correlation
primitive applied to the raw source image at offset `(x-ci', y-cj')`
against the rotated kernel. -/
def ConvolutionView.fastAt (v : ConvolutionView α) (x y p : Int) : α :=
  let ci' : Int := (v.kernel.cols : Int) - 1 - v.ci
  let cj' : Int := (v.kernel.rows : Int) - 1 - v.cj
  correlate_2d_at_point
    (fun i j => v.image.pixel (x - ci' + i) (y - cj' + j) p)
    (fun i j => (rot180 v.kernel).weight i j) v.kernel.cols v.kernel.rows

/-- The slow branch of `operator()` (lines 156-157): the same primitive
applied to the edge-extended source at the same offset. -/
def ConvolutionView.slowAt (v : ConvolutionView α) (x y p : Int) : α :=
  let ci' : Int := (v.kernel.cols : Int) - 1 - v.ci
  let cj' : Int := (v.kernel.rows : Int) - 1 - v.cj
  correlate_2d_at_point
    (fun i j => edge_extend v.image v.edge (x - ci' + i) (y - cj' + j) p)
    (fun i j => (rot180 v.kernel).weight i j) v.kernel.cols v.kernel.rows

/-- `operator()` (lines 147-159): the interior check selects the fast branch,
everything else takes the edge-extended branch. -/
def ConvolutionView.eval (v : ConvolutionView α) (x y p : Int) : α :=
  let ci' : Int := (v.kernel.cols : Int) - 1 - v.ci
  let cj' : Int := (v.kernel.rows : Int) - 1 - v.cj
  if ci' ≤ x ∧ cj' ≤ y ∧ x ≤ v.image.cols - (v.kernel.cols : Int) + ci' ∧
      y ≤ v.image.rows - (v.kernel.rows : Int) + cj'
  then v.fastAt x y p
  else v.slowAt x y p

/-- `prerasterize` (lines 161-170): expand the destination rectangle by the
kernel halo shifted by the origin margins, materialize that rectangle once
through the edge policy, re-anchor it with `crop`, and return a
`ConvolutionView` over the padded buffer with the no-op edge policy, the
same raw kernel (`m_kernel.child()`) and the same origin. -/
def ConvolutionView.prerasterize (v : ConvolutionView α) (b : BBox) :
    ConvolutionView α :=
  let ci' : Int := (v.kernel.cols : Int) - 1 - v.ci
  let cj' : Int := (v.kernel.rows : Int) - 1 - v.cj
  let src_bbox : BBox :=
    { minx := b.minx - ci', miny := b.miny - cj',
      width := b.width + ((v.kernel.cols : Int) - 1),
      height := b.height + ((v.kernel.rows : Int) - 1) }
  let src := materializeEdge v.image v.edge src_bbox
  { image := crop src (-src_bbox.minx) (-src_bbox.miny) v.image.cols v.image.rows,
    edge := noEdge, kernel := v.kernel, ci := v.ci, cj := v.cj }

/-- `rasterize` (lines 172-174) through the `vw::rasterize` driver (modelled
from the spec, ImageView.h not under `src/`): the driver assigns to each
destination pixel of the rectangle the prerasterized view's value at the
corresponding absolute coordinate; this is the value the destination buffer
holds at `(x - b.minx, y - b.miny, p)`. -/
def ConvolutionView.rasterizeAt (v : ConvolutionView α) (b : BBox) (x y p : Int) : α :=
  (v.prerasterize b).eval x y p

/-- `SeparableConvolutionView` (Convolution.h lines 186-324): a lazily
evaluated separable convolution of `image` with row factors `i_kernel` and
column factors `j_kernel`, origin `(ci, cj)`, edge policy `edge`.  The
mutable memoized 2D kernel `m_kernel2d` is modelled by explicit state
passing in `evalStep`. -/
structure SeparableConvolutionView (α : Type) where
  image : Image α
  i_kernel : List α
  j_kernel : List α
  ci : Int
  cj : Int
  edge : Image α → Int → Int → Int → α

/-- Accessor `cols()` (line 224): the source image's column count. -/
def SeparableConvolutionView.cols (v : SeparableConvolutionView α) : Int := v.image.cols

/-- Accessor `rows()` (line 227): the source image's row count. -/
def SeparableConvolutionView.rows (v : SeparableConvolutionView α) : Int := v.image.rows

/-- Accessor `planes()` (line 230): the source image's plane count. -/
def SeparableConvolutionView.planes (v : SeparableConvolutionView α) : Int := v.image.planes

/-- Narrowing of an unsigned 64-bit value to `int32` (two's complement),
used to model the implicit `size_t → int32` conversion in the separable
view's centered constructor. -/
def toInt32 (u : Nat) : Int :=
  if u % 2 ^ 32 < 2 ^ 31 then ((u % 2 ^ 32 : Nat) : Int)
  else ((u % 2 ^ 32 : Nat) : Int) - 2 ^ 32

/-- The default origin computation of the separable centered constructor
(line 221): `(m_i_kernel.size()-1)/2` in unsigned `size_t` arithmetic,
narrowed to `int32`. -/
def sepDefaultOrigin (n : Nat) : Int :=
  toInt32 (((n + (2 ^ 64 - 1)) % 2 ^ 64) / 2)

/-- The centered constructor (lines 219-221). -/
def SeparableConvolutionView.centered (image : Image α) (ik jk : List α)
    (edge : Image α → Int → Int → Int → α) : SeparableConvolutionView α :=
  { image := image, i_kernel := ik, j_kernel := jk,
    ci := sepDefaultOrigin ik.length, cj := sepDefaultOrigin jk.length,
    edge := edge }

/-- `generate2DKernel` (lines 196-203): the memoized 2D kernel; an axis with
no weights contributes extent 1 and identity weight 1, and the outer
product is stored reversed along both axes:
`m_kernel2d(ni-1-i, nj-1-j) = I[i] * J[j]`. -/
def generate2DKernel (I J : List α) : Kern α :=
  let ni := if I.length = 0 then 1 else I.length
  let nj := if J.length = 0 then 1 else J.length
  { cols := ni, rows := nj,
    weight := fun a b =>
      (if I.length = 0 then 1 else I.getD (ni - 1 - a) 0) *
        (if J.length = 0 then 1 else J.getD (nj - 1 - b) 0) }

/-- `operator()` (lines 236-250) with the memoization cache made explicit:
if the cache is empty the 2D kernel is generated, then the same two-branch
interior logic as the full view runs against the cached kernel (used
without rotation, since `generate2DKernel` stores it already flipped).
Returns the value and the cache state after the call. -/
def SeparableConvolutionView.evalStep (v : SeparableConvolutionView α)
    (cache : Option (Kern α)) (x y p : Int) : α × Option (Kern α) :=
  let k2d := match cache with
    | none => generate2DKernel v.i_kernel v.j_kernel
    | some k => k
  let ci' : Int := if v.i_kernel.length = 0 then 0 else (v.i_kernel.length : Int) - 1 - v.ci
  let cj' : Int := if v.j_kernel.length = 0 then 0 else (v.j_kernel.length : Int) - 1 - v.cj
  let value :=
    if ci' ≤ x ∧ cj' ≤ y ∧ x ≤ v.image.cols - (k2d.cols : Int) + ci' ∧
        y ≤ v.image.rows - (k2d.rows : Int) + cj'
    then correlate_2d_at_point
      (fun i j => v.image.pixel (x - ci' + i) (y - cj' + j) p)
      k2d.weight k2d.cols k2d.rows
    else correlate_2d_at_point
      (fun i j => edge_extend v.image v.edge (x - ci' + i) (y - cj' + j) p)
      k2d.weight k2d.cols k2d.rows
  (value, some k2d)

/-- Point evaluation of the separable view starting from an empty cache
(the state of a freshly constructed view). -/
def SeparableConvolutionView.eval (v : SeparableConvolutionView α) (x y p : Int) : α :=
  (v.evalStep none x y p).1

/-- `convolve_1d` (lines 296-321) writing into a destination buffer of the
given extents: for every destination coordinate with `p` below both the
source's plane count (the loop bound) and the destination's plane count
(the allocation), the cell holds the 1D correlation of the source row
against the reversed kernel (`kernel.rbegin()`); every cell the loop never
writes keeps the buffer's initial value, modelled as `0`. -/
def convolve_1d_raster (src : Image α) (destCols destRows destPlanes : Int)
    (kernel : List α) : Image α :=
  { cols := destCols, rows := destRows, planes := destPlanes,
    pixel := fun x y p =>
      if 0 ≤ x ∧ x < destCols ∧ 0 ≤ y ∧ y < destRows ∧ 0 ≤ p ∧ p < src.planes ∧
          p < destPlanes
      then correlate_1d_at_point
        (fun i => src.pixel (x + i) y p)
        (fun i => kernel.getD (kernel.length - 1 - i) 0) kernel.length
      else 0 }

/-- `rasterize` (lines 272-294) of the separable view, producing the
destination buffer that `prerasterize` (lines 262-266) allocates with
extents `(bbox.width, bbox.height, m_image.planes())`: if both factor
sequences are empty, the edge-extended source is rasterized straight into
the destination; otherwise the rectangle expanded by the active halos is
materialized through the edge policy and convolved by one or two 1D
passes.  In the two-pass case the intermediate `work` buffer is allocated
as `ImageView(bbox.width(), child_bbox.height())`, i.e. with a single
plane, exactly as in the source. -/
def SeparableConvolutionView.rasterizeBuf (v : SeparableConvolutionView α)
    (b : BBox) : Image α :=
  let ni := v.i_kernel.length
  let nj := v.j_kernel.length
  if ni = 0 ∧ nj = 0 then materializeEdge v.image v.edge b
  else
    let child : BBox :=
      { minx := b.minx - (if ni = 0 then 0 else (ni : Int) - v.ci - 1),
        miny := b.miny - (if nj = 0 then 0 else (nj : Int) - v.cj - 1),
        width := b.width + (if ni = 0 then 0 else (ni : Int) - 1),
        height := b.height + (if nj = 0 then 0 else (nj : Int) - 1) }
    let src_buf := materializeEdge v.image v.edge child
    if 0 < ni ∧ 0 < nj then
      let work := convolve_1d_raster src_buf b.width child.height 1 v.i_kernel
      (convolve_1d_raster work.transposeView b.height b.width v.image.planes
        v.j_kernel).transposeView
    else if 0 < ni then
      convolve_1d_raster src_buf b.width b.height v.image.planes v.i_kernel
    else
      (convolve_1d_raster src_buf.transposeView b.height b.width v.image.planes
        v.j_kernel).transposeView

/-- The value the separable view's tiled rasterization leaves in the
destination buffer for absolute coordinate `(x, y)` of the rectangle and
plane `p`. -/
def SeparableConvolutionView.rasterizeAt (v : SeparableConvolutionView α)
    (b : BBox) (x y p : Int) : α :=
  (v.rasterizeBuf b).pixel (x - b.minx) (y - b.miny) p

/-- Wrapping an image in the no-op edge policy is raw access: both branches
of the extension return the child's pixel. -/
theorem edge_extend_noEdge (img : Image α) (x y p : Int) :
    edge_extend img noEdge x y p = img.pixel x y p := by
  unfold edge_extend noEdge
  split <;> rfl

/-- On the interior (all kernel taps land inside the source), the raw-access
branch and the edge-extended branch of `ConvolutionView::operator()` read
the same pixels, so the two correlations coincide. -/
theorem interior_fast_eq_slow (v : ConvolutionView α) (x y p : Int)
    (h1 : (v.kernel.cols : Int) - 1 - v.ci ≤ x)
    (h2 : (v.kernel.rows : Int) - 1 - v.cj ≤ y)
    (h3 : x ≤ v.image.cols - (v.kernel.cols : Int) + ((v.kernel.cols : Int) - 1 - v.ci))
    (h4 : y ≤ v.image.rows - (v.kernel.rows : Int) + ((v.kernel.rows : Int) - 1 - v.cj)) :
    v.fastAt x y p = v.slowAt x y p := by
  unfold ConvolutionView.fastAt ConvolutionView.slowAt
  refine correlate_2d_congr (fun i j hi hj => ?_) (fun _ _ _ _ => rfl)
  have hi' : (i : Int) < (v.kernel.cols : Int) := by exact_mod_cast hi
  have hj' : (j : Int) < (v.kernel.rows : Int) := by exact_mod_cast hj
  unfold edge_extend
  rw [if_pos ⟨by omega, by omega, by omega, by omega⟩]

/-- Under the interior conditions `operator()` takes the fast branch. -/
theorem eval_eq_fastAt (v : ConvolutionView α) (x y p : Int)
    (h1 : (v.kernel.cols : Int) - 1 - v.ci ≤ x)
    (h2 : (v.kernel.rows : Int) - 1 - v.cj ≤ y)
    (h3 : x ≤ v.image.cols - (v.kernel.cols : Int) + ((v.kernel.cols : Int) - 1 - v.ci))
    (h4 : y ≤ v.image.rows - (v.kernel.rows : Int) + ((v.kernel.rows : Int) - 1 - v.cj)) :
    v.eval x y p = v.fastAt x y p := by
  unfold ConvolutionView.eval
  exact if_pos ⟨h1, h2, h3, h4⟩

/-- The 5-by-5 single-plane all-ones image of the spec's concrete scenario. -/
def onesImage5 : Image Int := { cols := 5, rows := 5, planes := 1, pixel := fun _ _ _ => 1 }

/-- The 3-by-3 all-ones kernel of the spec's concrete scenario. -/
def onesKernel3 : Kern Int := { cols := 3, rows := 3, weight := fun _ _ => 1 }

/-- The concrete-scenario view: 5-by-5 all-ones image, 3-by-3 all-ones
kernel, default (centered) origin, zero-padding edge policy. -/
def convW : ConvolutionView Int := ConvolutionView.centered onesImage5 onesKernel3 zeroEdge

/-- C1: for every `ConvolutionView` and every coordinate satisfying the
interior check (`x ≥ kernelCols-1-ci`, `y ≥ kernelRows-1-cj`,
`x ≤ imgCols-kernelCols+(kernelCols-1-ci)`,
`y ≤ imgRows-kernelRows+(kernelRows-1-cj)`), the fast path (the 2D
correlation primitive on the raw source at offset `(x-ci', y-cj')`) and the
slow path (the same primitive on the edge-extended source at the same
offset) return the same value. -/
theorem conv_fast_slow_paths_agree (v : ConvolutionView α) (x y p : Int)
    (h1 : (v.kernel.cols : Int) - 1 - v.ci ≤ x)
    (h2 : (v.kernel.rows : Int) - 1 - v.cj ≤ y)
    (h3 : x ≤ v.image.cols - (v.kernel.cols : Int) + ((v.kernel.cols : Int) - 1 - v.ci))
    (h4 : y ≤ v.image.rows - (v.kernel.rows : Int) + ((v.kernel.rows : Int) - 1 - v.cj)) :
    v.fastAt x y p = v.slowAt x y p :=
  interior_fast_eq_slow v x y p h1 h2 h3 h4

/-- Witness for C1 at the interior point `(2,2,0)` of the concrete
scenario view. -/
theorem conv_fast_slow_paths_agree_witness :
    convW.fastAt 2 2 0 = convW.slowAt 2 2 0 :=
  conv_fast_slow_paths_agree convW 2 2 0 (by decide) (by decide) (by decide) (by decide)

/-- C4: for the 5-by-5 all-ones image convolved with the 3-by-3 all-ones
kernel, default origin and zero-padding edge policy, the output at (2,2)
is 9 and the output at (0,0) is 4. -/
theorem conv_concrete_scenario :
    convW.eval 2 2 0 = 9 ∧ convW.eval 0 0 0 = 4 := by
  constructor <;> decide

/-- C10: for every `ConvolutionView` and every `SeparableConvolutionView`,
`cols()`, `rows()` and `planes()` return exactly the source image's
extents, regardless of kernel, origin or edge policy. -/
theorem view_extents_eq_source (image : Image α) (k : Kern α)
    (edge1 edge2 : Image α → Int → Int → Int → α) (ci cj ci2 cj2 : Int)
    (ik jk : List α) :
    (ConvolutionView.mk image edge1 k ci cj).cols = image.cols ∧
    (ConvolutionView.mk image edge1 k ci cj).rows = image.rows ∧
    (ConvolutionView.mk image edge1 k ci cj).planes = image.planes ∧
    (SeparableConvolutionView.mk image ik jk ci2 cj2 edge2).cols = image.cols ∧
    (SeparableConvolutionView.mk image ik jk ci2 cj2 edge2).rows = image.rows ∧
    (SeparableConvolutionView.mk image ik jk ci2 cj2 edge2).planes = image.planes :=
  ⟨rfl, rfl, rfl, rfl, rfl, rfl⟩

/-- C6: both centered constructors set the origin per axis to the floor of
`(extent-1)/2` (`/` on `Int` is floor division for the positive divisor 2);
the separable bound `2^31` reflects the `size_t` to `int32` narrowing. -/
theorem default_origin_is_floor_half (image : Image α) (k : Kern α)
    (edge : Image α → Int → Int → Int → α) (ik jk : List α)
    (hc : 1 ≤ k.cols) (hr : 1 ≤ k.rows)
    (hi1 : 1 ≤ ik.length) (hi2 : ik.length ≤ 2 ^ 31)
    (hj1 : 1 ≤ jk.length) (hj2 : jk.length ≤ 2 ^ 31) :
    (ConvolutionView.centered image k edge).ci = ((k.cols : Int) - 1) / 2 ∧
    (ConvolutionView.centered image k edge).cj = ((k.rows : Int) - 1) / 2 ∧
    (SeparableConvolutionView.centered image ik jk edge).ci = ((ik.length : Int) - 1) / 2 ∧
    (SeparableConvolutionView.centered image ik jk edge).cj = ((jk.length : Int) - 1) / 2 := by
  have tdiv_eq : ∀ n : Nat, 1 ≤ n → Int.tdiv ((n : Int) - 1) 2 = ((n : Int) - 1) / 2 := by
    intro n hn
    have hcast : ((n : Int) - 1) = ((n - 1 : Nat) : Int) := by omega
    rw [hcast]
    rfl
  have sep_eq : ∀ n : Nat, 1 ≤ n → n ≤ 2 ^ 31 →
      sepDefaultOrigin n = ((n : Int) - 1) / 2 := by
    intro n hn hb
    unfold sepDefaultOrigin toInt32
    split <;> omega
  exact ⟨tdiv_eq k.cols hc, tdiv_eq k.rows hr, sep_eq ik.length hi1 hi2,
    sep_eq jk.length hj1 hj2⟩

/-- Witness for C6: a length-5 axis gets origin 2, a length-4 axis gets
origin 1, through both constructors. -/
theorem default_origin_is_floor_half_witness :
    ((ConvolutionView.centered onesImage5 (Kern.mk 5 4 fun _ _ => 1) zeroEdge).ci = 2 ∧
      (ConvolutionView.centered onesImage5 (Kern.mk 5 4 fun _ _ => 1) zeroEdge).cj = 1 ∧
      (SeparableConvolutionView.centered onesImage5 [1, 1, 1, 1, 1] [1, 1, 1, 1] zeroEdge).ci = 2 ∧
      (SeparableConvolutionView.centered onesImage5 [1, 1, 1, 1, 1] [1, 1, 1, 1] zeroEdge).cj = 1) ∧
    ((ConvolutionView.centered onesImage5 (Kern.mk 5 4 fun _ _ => 1) zeroEdge).ci =
        ((5 : Int) - 1) / 2 ∧
      (ConvolutionView.centered onesImage5 (Kern.mk 5 4 fun _ _ => 1) zeroEdge).cj =
        ((4 : Int) - 1) / 2 ∧
      (SeparableConvolutionView.centered onesImage5 [1, 1, 1, 1, 1] [1, 1, 1, 1] zeroEdge).ci =
        ((5 : Int) - 1) / 2 ∧
      (SeparableConvolutionView.centered onesImage5 [1, 1, 1, 1, 1] [1, 1, 1, 1] zeroEdge).cj =
        ((4 : Int) - 1) / 2) :=
  ⟨by decide,
    default_origin_is_floor_half onesImage5 (Kern.mk 5 4 fun _ _ => 1) zeroEdge
      [1, 1, 1, 1, 1] [1, 1, 1, 1] (by decide) (by decide) (by decide) (by decide)
      (by decide) (by decide)⟩

/-- Any pixel of the padded buffer that `prerasterize` builds, read within
the materialized halo rectangle, equals the edge-extended source at the
same absolute coordinate. -/
theorem prerasterize_image_pixel (v : ConvolutionView α) (b : BBox) (a w p : Int)
    (ha1 : b.minx - ((v.kernel.cols : Int) - 1 - v.ci) ≤ a)
    (ha2 : a < b.minx - ((v.kernel.cols : Int) - 1 - v.ci) +
      (b.width + ((v.kernel.cols : Int) - 1)))
    (hw1 : b.miny - ((v.kernel.rows : Int) - 1 - v.cj) ≤ w)
    (hw2 : w < b.miny - ((v.kernel.rows : Int) - 1 - v.cj) +
      (b.height + ((v.kernel.rows : Int) - 1)))
    (hp1 : 0 ≤ p) (hp2 : p < v.image.planes) :
    (v.prerasterize b).image.pixel a w p = edge_extend v.image v.edge a w p := by
  simp only [ConvolutionView.prerasterize, crop, materializeEdge]
  split
  · congr 1 <;> ring
  · next h => exact absurd ⟨by omega, by omega, by omega, by omega, hp1, hp2⟩ h

/-- A view whose edge policy is the no-op policy has identical slow and fast
branches: the edge-extended access is raw access. -/
theorem slowAt_noEdge_eq_fastAt (P : ConvolutionView α) (hE : P.edge = noEdge)
    (x y p : Int) : P.slowAt x y p = P.fastAt x y p := by
  simp only [ConvolutionView.slowAt, ConvolutionView.fastAt]
  refine correlate_2d_congr (fun i j hi hj => ?_) (fun _ _ _ _ => rfl)
  rw [hE, edge_extend_noEdge]

/-- Tiled rasterization of the full view agrees with point evaluation: for
every pixel of the requested rectangle (and every valid plane), the
prerasterized view's value equals `operator()`'s value. -/
theorem rasterizeAt_eq_eval (v : ConvolutionView α) (b : BBox) (x y p : Int)
    (hx1 : b.minx ≤ x) (hx2 : x < b.minx + b.width)
    (hy1 : b.miny ≤ y) (hy2 : y < b.miny + b.height)
    (hp1 : 0 ≤ p) (hp2 : p < v.image.planes) :
    v.rasterizeAt b x y p = v.eval x y p := by
  have hfast : (v.prerasterize b).fastAt x y p = v.slowAt x y p := by
    have hk : (v.prerasterize b).kernel = v.kernel := rfl
    have hci : (v.prerasterize b).ci = v.ci := rfl
    have hcj : (v.prerasterize b).cj = v.cj := rfl
    simp only [ConvolutionView.fastAt, ConvolutionView.slowAt, hk, hci, hcj]
    refine correlate_2d_congr (fun i j hi hj => ?_) (fun _ _ _ _ => rfl)
    have hi' : (i : Int) < (v.kernel.cols : Int) := by exact_mod_cast hi
    have hj' : (j : Int) < (v.kernel.rows : Int) := by exact_mod_cast hj
    exact prerasterize_image_pixel v b _ _ p (by omega) (by omega) (by omega)
      (by omega) hp1 hp2
  show (v.prerasterize b).eval x y p = v.eval x y p
  simp only [ConvolutionView.eval]
  rw [slowAt_noEdge_eq_fastAt (v.prerasterize b) rfl x y p, ite_self, hfast]
  split
  · next h => exact (interior_fast_eq_slow v x y p h.1 h.2.1 h.2.2.1 h.2.2.2).symm
  · rfl

/-- C2: tiled rasterization assigns to each pixel of the destination
rectangle exactly the value point evaluation returns, and consequently any
two rectangles that both contain a pixel (in particular two adjacent
rectangles tiling a region, compared with the whole region) assign it the
same value. -/
theorem conv_tiled_rasterization_agrees (v : ConvolutionView α) (b1 b2 : BBox)
    (x y p : Int)
    (h1x1 : b1.minx ≤ x) (h1x2 : x < b1.minx + b1.width)
    (h1y1 : b1.miny ≤ y) (h1y2 : y < b1.miny + b1.height)
    (h2x1 : b2.minx ≤ x) (h2x2 : x < b2.minx + b2.width)
    (h2y1 : b2.miny ≤ y) (h2y2 : y < b2.miny + b2.height)
    (hp1 : 0 ≤ p) (hp2 : p < v.image.planes) :
    v.rasterizeAt b1 x y p = v.eval x y p ∧
    v.rasterizeAt b1 x y p = v.rasterizeAt b2 x y p := by
  have e1 := rasterizeAt_eq_eval v b1 x y p h1x1 h1x2 h1y1 h1y2 hp1 hp2
  have e2 := rasterizeAt_eq_eval v b2 x y p h2x1 h2x2 h2y1 h2y2 hp1 hp2
  exact ⟨e1, e1.trans e2.symm⟩

/-- Witness for C2: the pixel `(2,2,0)` of the concrete scenario view gets
the same value from the tile `(1,1)-(3,3)`, from the full-image tile and
from point evaluation. -/
theorem conv_tiled_rasterization_agrees_witness :
    convW.rasterizeAt (BBox.mk 1 1 2 2) 2 2 0 = convW.eval 2 2 0 ∧
    convW.rasterizeAt (BBox.mk 1 1 2 2) 2 2 0 = convW.rasterizeAt (BBox.mk 0 0 5 5) 2 2 0 :=
  conv_tiled_rasterization_agrees convW (BBox.mk 1 1 2 2) (BBox.mk 0 0 5 5) 2 2 0
    (by decide) (by decide) (by decide) (by decide) (by decide) (by decide)
    (by decide) (by decide) (by decide) (by decide)

/-- The 1-by-1 identity kernel with weight 1. -/
def idKern : Kern α := { cols := 1, rows := 1, weight := fun _ _ => 1 }

/-- C5: a `ConvolutionView` with the 1-by-1 weight-1 kernel and default
origin reproduces the source image exactly under any edge policy, both for
point evaluation at every in-range coordinate and for rasterization over
any rectangle containing that coordinate. -/
theorem identity_kernel_reproduces_source (img : Image α)
    (edge : Image α → Int → Int → Int → α) (b : BBox) (x y p : Int)
    (hx1 : 0 ≤ x) (hx2 : x < img.cols) (hy1 : 0 ≤ y) (hy2 : y < img.rows)
    (hbx1 : b.minx ≤ x) (hbx2 : x < b.minx + b.width)
    (hby1 : b.miny ≤ y) (hby2 : y < b.miny + b.height)
    (hp1 : 0 ≤ p) (hp2 : p < img.planes) :
    (ConvolutionView.centered img idKern edge).eval x y p = img.pixel x y p ∧
    (ConvolutionView.centered img idKern edge).rasterizeAt b x y p = img.pixel x y p := by
  have ht : Int.tdiv ((1 : Int) - 1) 2 = 0 := rfl
  have heval : (ConvolutionView.centered img idKern edge).eval x y p = img.pixel x y p := by
    simp only [ConvolutionView.eval, ConvolutionView.fastAt, ConvolutionView.centered,
      idKern, rot180, Nat.cast_one, Nat.cast_zero, ht]
    rw [if_pos ⟨by omega, by omega, by omega, by omega⟩]
    rw [correlate_2d_eq_sumRange, sumRange_one, sumRange_one]
    simp only [Nat.cast_zero]
    rw [one_mul]
    have hA : x - (1 - 1 - 0) + (0 : Int) = x := by ring
    have hB : y - (1 - 1 - 0) + (0 : Int) = y := by ring
    rw [hA, hB]
  refine ⟨heval, ?_⟩
  rw [rasterizeAt_eq_eval _ b x y p hbx1 hbx2 hby1 hby2 hp1 hp2]
  exact heval

/-- Witness for C5 at coordinate `(3,1,0)` of the all-ones image. -/
theorem identity_kernel_reproduces_source_witness :
    (ConvolutionView.centered onesImage5 idKern zeroEdge).eval 3 1 0 =
      onesImage5.pixel 3 1 0 ∧
    (ConvolutionView.centered onesImage5 idKern zeroEdge).rasterizeAt
        (BBox.mk 0 0 5 5) 3 1 0 = onesImage5.pixel 3 1 0 :=
  identity_kernel_reproduces_source onesImage5 zeroEdge (BBox.mk 0 0 5 5) 3 1 0
    (by decide) (by decide) (by decide) (by decide) (by decide) (by decide)
    (by decide) (by decide) (by decide) (by decide)

/-- C7: the memoized 2D kernel is built exactly on a first evaluation with an
empty cache and passed through unchanged when a cache exists, and the built
kernel satisfies `kernel2d (ni-1-i) (nj-1-j) = I[i] * J[j]` for all valid
`i, j` (an empty sequence contributing extent 1 and identity weight 1 on
its axis): the outer product of the factors reversed along both axes. -/
theorem sep_kernel_memoized_outer_product (v : SeparableConvolutionView α)
    (k : Kern α) (x y p : Int) (i j : Nat)
    (hi : i < (if v.i_kernel.length = 0 then 1 else v.i_kernel.length))
    (hj : j < (if v.j_kernel.length = 0 then 1 else v.j_kernel.length)) :
    (v.evalStep none x y p).2 = some (generate2DKernel v.i_kernel v.j_kernel) ∧
    (v.evalStep (some k) x y p).2 = some k ∧
    (generate2DKernel v.i_kernel v.j_kernel).weight
        ((if v.i_kernel.length = 0 then 1 else v.i_kernel.length) - 1 - i)
        ((if v.j_kernel.length = 0 then 1 else v.j_kernel.length) - 1 - j) =
      (if v.i_kernel.length = 0 then 1 else v.i_kernel.getD i 0) *
        (if v.j_kernel.length = 0 then 1 else v.j_kernel.getD j 0) := by
  refine ⟨rfl, rfl, ?_⟩
  by_cases hI : v.i_kernel.length = 0 <;> by_cases hJ : v.j_kernel.length = 0
  · simp [generate2DKernel, hI, hJ]
  · simp only [hI, if_pos] at hj ⊢
    simp [generate2DKernel, hI, hJ]
    have hjj : v.j_kernel.length - 1 - (v.j_kernel.length - 1 - j) = j := by
      simp [hJ] at hj
      omega
    rw [hjj]
  · simp [generate2DKernel, hI, hJ]
    have hii : v.i_kernel.length - 1 - (v.i_kernel.length - 1 - i) = i := by
      simp [hI] at hi
      omega
    rw [hii]
  · simp [generate2DKernel, hI, hJ]
    have hii : v.i_kernel.length - 1 - (v.i_kernel.length - 1 - i) = i := by
      simp [hI] at hi
      omega
    have hjj : v.j_kernel.length - 1 - (v.j_kernel.length - 1 - j) = j := by
      simp [hJ] at hj
      omega
    rw [hii, hjj]

/-- Separable point evaluation always equals the edge-extended correlation
against the memoized kernel: on the interior the raw-access branch reads
the same pixels as the edge-extended branch. -/
theorem sep_eval_eq_slow (v : SeparableConvolutionView α) (x y p : Int) :
    v.eval x y p = correlate_2d_at_point
      (fun i j => edge_extend v.image v.edge
        (x - (if v.i_kernel.length = 0 then 0 else (v.i_kernel.length : Int) - 1 - v.ci) + i)
        (y - (if v.j_kernel.length = 0 then 0 else (v.j_kernel.length : Int) - 1 - v.cj) + j) p)
      (generate2DKernel v.i_kernel v.j_kernel).weight
      (generate2DKernel v.i_kernel v.j_kernel).cols
      (generate2DKernel v.i_kernel v.j_kernel).rows := by
  simp only [SeparableConvolutionView.eval, SeparableConvolutionView.evalStep]
  set ci' : Int := if v.i_kernel.length = 0 then 0 else (v.i_kernel.length : Int) - 1 - v.ci
    with hcidef
  set cj' : Int := if v.j_kernel.length = 0 then 0 else (v.j_kernel.length : Int) - 1 - v.cj
    with hcjdef
  split
  · next h =>
    refine correlate_2d_congr (fun i j hi hj => ?_) (fun _ _ _ _ => rfl)
    have hi' : (i : Int) < ((generate2DKernel v.i_kernel v.j_kernel).cols : Int) := by
      exact_mod_cast hi
    have hj' : (j : Int) < ((generate2DKernel v.i_kernel v.j_kernel).rows : Int) := by
      exact_mod_cast hj
    unfold edge_extend
    rw [if_pos ⟨by omega, by omega, by omega, by omega⟩]
  · rfl

/-- C8: a separable view whose two factor sequences are both empty behaves
as the identity: point evaluation at any in-range coordinate returns the
source pixel, and tiled rasterization delegates to the edge-extension
policy as a pure pass-through. -/
theorem sep_degenerate_kernel_identity (v : SeparableConvolutionView α)
    (b : BBox) (x y p : Int)
    (hI : v.i_kernel = []) (hJ : v.j_kernel = [])
    (hx1 : 0 ≤ x) (hx2 : x < v.image.cols) (hy1 : 0 ≤ y) (hy2 : y < v.image.rows)
    (hbx1 : b.minx ≤ x) (hbx2 : x < b.minx + b.width)
    (hby1 : b.miny ≤ y) (hby2 : y < b.miny + b.height)
    (hp1 : 0 ≤ p) (hp2 : p < v.image.planes) :
    v.eval x y p = v.image.pixel x y p ∧
    v.rasterizeAt b x y p = edge_extend v.image v.edge x y p := by
  constructor
  · rw [sep_eval_eq_slow, hI, hJ]
    have hcols : (generate2DKernel ([] : List α) []).cols = 1 := rfl
    have hrows : (generate2DKernel ([] : List α) []).rows = 1 := rfl
    rw [hcols, hrows, correlate_2d_eq_sumRange, sumRange_one, sumRange_one]
    have hw : (generate2DKernel ([] : List α) []).weight 0 0 = 1 * 1 := rfl
    rw [hw, one_mul, one_mul]
    have hz : (if ([] : List α).length = 0 then (0 : Int) else ([] : List α).length - 1 - v.ci) = 0 := rfl
    have hz' : (if ([] : List α).length = 0 then (0 : Int) else ([] : List α).length - 1 - v.cj) = 0 := rfl
    have hA : x - (0 : Int) + ((0 : Nat) : Int) = x := by push_cast; ring
    have hB : y - (0 : Int) + ((0 : Nat) : Int) = y := by push_cast; ring
    rw [hz, hz', hA, hB]
    unfold edge_extend
    rw [if_pos ⟨hx1, hx2, hy1, hy2⟩]
  · simp only [SeparableConvolutionView.rasterizeAt, SeparableConvolutionView.rasterizeBuf,
      hI, hJ, List.length_nil, materializeEdge]
    show (if 0 ≤ x - b.minx ∧ x - b.minx < b.width ∧ 0 ≤ y - b.miny ∧
        y - b.miny < b.height ∧ 0 ≤ p ∧ p < v.image.planes
      then edge_extend v.image v.edge (b.minx + (x - b.minx)) (b.miny + (y - b.miny)) p
      else 0) = edge_extend v.image v.edge x y p
    rw [if_pos ⟨by omega, by omega, by omega, by omega, hp1, hp2⟩]
    congr 1 <;> ring

/-- A small concrete separable view: 5-by-5 all-ones image, row factors
`[1, 2]`, column factors `[3]`, origin `(0, 0)`, zero-padding edge policy. -/
def sepW : SeparableConvolutionView Int :=
  SeparableConvolutionView.mk onesImage5 [1, 2] [3] 0 0 zeroEdge

/-- Witness for C7 on `sepW` with `i = 1`, `j = 0`: the cache is built from
an empty state, reused from a filled state, and the flipped-outer-product
cell holds `I[1] * J[0] = 2 * 3`. -/
theorem sep_kernel_memoized_outer_product_witness :
    (sepW.evalStep none 0 0 0).2 = some (generate2DKernel [1, 2] [3]) ∧
    (sepW.evalStep (some (idKern (α := Int))) 0 0 0).2 = some (idKern (α := Int)) ∧
    (generate2DKernel ([1, 2] : List Int) [3]).weight 0 0 = 2 * 3 := by
  have h := sep_kernel_memoized_outer_product sepW (idKern (α := Int)) 0 0 0 1 0
    (by decide) (by decide)
  exact ⟨h.1, h.2.1, h.2.2⟩

/-- A degenerate separable view: both factor sequences empty, over the
all-ones image. -/
def sepEmptyW : SeparableConvolutionView Int :=
  SeparableConvolutionView.mk onesImage5 [] [] 0 0 zeroEdge

/-- Witness for C8 at coordinate `(1, 2, 0)` over the full-image tile. -/
theorem sep_degenerate_kernel_identity_witness :
    sepEmptyW.eval 1 2 0 = sepEmptyW.image.pixel 1 2 0 ∧
    sepEmptyW.rasterizeAt (BBox.mk 0 0 5 5) 1 2 0 =
      edge_extend sepEmptyW.image sepEmptyW.edge 1 2 0 :=
  sep_degenerate_kernel_identity sepEmptyW (BBox.mk 0 0 5 5) 1 2 0 rfl rfl
    (by decide) (by decide) (by decide) (by decide) (by decide) (by decide)
    (by decide) (by decide) (by decide) (by decide)

/-- The materialized outer-product kernel of two factor sequences, following
the spec's words for the separable/full comparison: cell `(i, j)` holds
`I[i] * J[j]`. -/
def outerKernel (I J : List α) : Kern α :=
  { cols := I.length, rows := J.length,
    weight := fun i j => I.getD i 0 * J.getD j 0 }

/-- A 1-by-1 two-plane all-ones image: the smallest input exposing the
plane handling of the separable rasterization path. -/
def imgTwoPlanes : Image Int := { cols := 1, rows := 1, planes := 2, pixel := fun _ _ _ => 1 }

/-- The separable view over `imgTwoPlanes` with row factors `[1]` and column
factors `[1]`, origin `(0, 0)`, zero-padding edge policy. -/
def sepBugView : SeparableConvolutionView Int :=
  SeparableConvolutionView.mk imgTwoPlanes [1] [1] 0 0 zeroEdge

/-- The full view over `imgTwoPlanes` with the materialized outer-product
kernel of `[1]` and `[1]` and the same origin and edge policy. -/
def fullBugView : ConvolutionView Int :=
  ConvolutionView.mk imgTwoPlanes zeroEdge (outerKernel [1] [1]) 0 0

/-- C3 (divergence evaluated at the failing input): on a two-plane image the
separable view's tiled rasterization leaves plane 1 unfilled (both
evaluation paths return 1 there, and the full view's rasterization returns
1, but the separable two-pass rasterization yields the buffer's initial
value 0), because the intermediate `work` buffer is allocated with a
single plane and the second pass loops over `src.planes() == 1`. -/
theorem sep_rasterize_multiplane_divergence :
    sepBugView.rasterizeAt (BBox.mk 0 0 1 1) 0 0 1 = 0 ∧
    sepBugView.eval 0 0 1 = 1 ∧
    fullBugView.rasterizeAt (BBox.mk 0 0 1 1) 0 0 1 = 1 ∧
    fullBugView.eval 0 0 1 = 1 ∧
    sepBugView.rasterizeAt (BBox.mk 0 0 1 1) 0 0 0 = 1 := by
  refine ⟨?_, ?_, ?_, ?_, ?_⟩ <;> decide

/-- The source filtered only along the row axis: the mathematical 1D
convolution of `g` (a pixel source such as the edge-extended image) with
weights `I` and origin `ci`, following the spec's description of the
empty-axis behavior ("the output equals the source filtered only by the
other axis's 1D weights"). -/
def rowFilter (I : List α) (ci : Int) (g : Int → Int → Int → α) (x y p : Int) : α :=
  sumRange (fun s => I.getD s 0 * g (x + ci - s) y p) I.length

/-- The source filtered only along the column axis, the transposed
counterpart of `rowFilter`. -/
def colFilter (J : List α) (cj : Int) (g : Int → Int → Int → α) (x y p : Int) : α :=
  sumRange (fun s => J.getD s 0 * g x (y + cj - s) p) J.length

theorem transposeView_pixel (img : Image α) (a w p : Int) :
    (img.transposeView).pixel a w p = img.pixel w a p := rfl

theorem materializeEdge_pixel (img : Image α) (edge : Image α → Int → Int → Int → α)
    (m1 m2 w2 h2 : Int) (a w p : Int)
    (ha1 : 0 ≤ a) (ha2 : a < w2) (hw1 : 0 ≤ w) (hw2 : w < h2)
    (hp1 : 0 ≤ p) (hp2 : p < img.planes) :
    (materializeEdge img edge (BBox.mk m1 m2 w2 h2)).pixel a w p =
      edge_extend img edge (m1 + a) (m2 + w) p := by
  show (if 0 ≤ a ∧ a < w2 ∧ 0 ≤ w ∧ w < h2 ∧ 0 ≤ p ∧ p < img.planes
    then edge_extend img edge (m1 + a) (m2 + w) p else 0) = _
  rw [if_pos ⟨ha1, ha2, hw1, hw2, hp1, hp2⟩]

theorem convolve_1d_raster_pixel (src : Image α) (dc dr dp : Int) (K : List α)
    (a w p : Int)
    (ha1 : 0 ≤ a) (ha2 : a < dc) (hw1 : 0 ≤ w) (hw2 : w < dr)
    (hp1 : 0 ≤ p) (hp2 : p < src.planes) (hp3 : p < dp) :
    (convolve_1d_raster src dc dr dp K).pixel a w p =
      sumRange (fun i => K.getD (K.length - 1 - i) 0 * src.pixel (a + i) w p) K.length := by
  show (if 0 ≤ a ∧ a < dc ∧ 0 ≤ w ∧ w < dr ∧ 0 ≤ p ∧ p < src.planes ∧ p < dp
    then correlate_1d_at_point (fun i => src.pixel (a + i) w p)
      (fun i => K.getD (K.length - 1 - i) 0) K.length
    else 0) = _
  rw [if_pos ⟨ha1, ha2, hw1, hw2, hp1, hp2, hp3⟩]
  exact correlate_1d_eq_sumRange _ _ _

/-- Reindexing: the reversed-kernel sum over taps `x - (n-1-ci) + i` is the
row filter with weights in natural order. -/
theorem rowFilter_reflected (I : List α) (ci : Int) (g : Int → Int → Int → α)
    (x y p : Int) :
    sumRange (fun i => I.getD (I.length - 1 - i) 0 *
      g (x - ((I.length : Int) - 1 - ci) + i) y p) I.length =
      rowFilter I ci g x y p := by
  unfold rowFilter
  rw [← sumRange_reflect (fun s => I.getD s 0 * g (x + ci - s) y p) I.length]
  refine sumRange_congr (fun i hi => ?_)
  have harg : x - ((I.length : Int) - 1 - ci) + (i : Int) =
      x + ci - ((I.length - 1 - i : Nat) : Int) := by
    have hcast : ((I.length - 1 - i : Nat) : Int) = (I.length : Int) - 1 - i := by omega
    rw [hcast]; ring
  rw [harg]

/-- Reindexing along the column axis. -/
theorem colFilter_reflected (J : List α) (cj : Int) (g : Int → Int → Int → α)
    (x y p : Int) :
    sumRange (fun i => J.getD (J.length - 1 - i) 0 *
      g x (y - ((J.length : Int) - 1 - cj) + i) p) J.length =
      colFilter J cj g x y p := by
  unfold colFilter
  rw [← sumRange_reflect (fun s => J.getD s 0 * g x (y + cj - s) p) J.length]
  refine sumRange_congr (fun i hi => ?_)
  have harg : y - ((J.length : Int) - 1 - cj) + (i : Int) =
      y + cj - ((J.length - 1 - i : Nat) : Int) := by
    have hcast : ((J.length - 1 - i : Nat) : Int) = (J.length : Int) - 1 - i := by omega
    rw [hcast]; ring
  rw [harg]

/-- With an empty column-factor sequence, separable point evaluation is the
row filter applied to the edge-extended source. -/
theorem sep_row_eval (v : SeparableConvolutionView α) (x y p : Int)
    (hJ : v.j_kernel = []) (hlen : v.i_kernel.length ≠ 0) :
    v.eval x y p = rowFilter v.i_kernel v.ci (edge_extend v.image v.edge) x y p := by
  rw [sep_eval_eq_slow, hJ]
  have hrows : (generate2DKernel v.i_kernel ([] : List α)).rows = 1 := rfl
  have hcols : (generate2DKernel v.i_kernel ([] : List α)).cols = v.i_kernel.length := by
    simp [generate2DKernel, hlen]
  have hci2 : (if v.i_kernel.length = 0 then (0 : Int)
      else (v.i_kernel.length : Int) - 1 - v.ci) = (v.i_kernel.length : Int) - 1 - v.ci := by
    simp [hlen]
  have hcj2 : (if ([] : List α).length = 0 then (0 : Int)
      else ((([] : List α).length : Int) - 1 - v.cj)) = 0 := rfl
  rw [hci2, hcj2, hrows, hcols, correlate_2d_eq_sumRange, sumRange_one]
  rw [← rowFilter_reflected v.i_kernel v.ci (edge_extend v.image v.edge) x y p]
  refine sumRange_congr (fun i hi => ?_)
  have hw : (generate2DKernel v.i_kernel ([] : List α)).weight i 0 =
      v.i_kernel.getD (v.i_kernel.length - 1 - i) 0 := by
    simp [generate2DKernel, hlen]
  rw [hw]
  have hy0 : y - (0 : Int) + ((0 : Nat) : Int) = y := by push_cast; ring
  rw [hy0]

/-- With an empty row-factor sequence, separable point evaluation is the
column filter applied to the edge-extended source. -/
theorem sep_col_eval (v : SeparableConvolutionView α) (x y p : Int)
    (hI : v.i_kernel = []) (hlen : v.j_kernel.length ≠ 0) :
    v.eval x y p = colFilter v.j_kernel v.cj (edge_extend v.image v.edge) x y p := by
  rw [sep_eval_eq_slow, hI]
  have hrows : (generate2DKernel ([] : List α) v.j_kernel).rows = v.j_kernel.length := by
    simp [generate2DKernel, hlen]
  have hcols : (generate2DKernel ([] : List α) v.j_kernel).cols = 1 := rfl
  have hci2 : (if ([] : List α).length = 0 then (0 : Int)
      else ((([] : List α).length : Int) - 1 - v.ci)) = 0 := rfl
  have hcj2 : (if v.j_kernel.length = 0 then (0 : Int)
      else (v.j_kernel.length : Int) - 1 - v.cj) = (v.j_kernel.length : Int) - 1 - v.cj := by
    simp [hlen]
  rw [hci2, hcj2, hrows, hcols, correlate_2d_eq_sumRange]
  simp only [sumRange_one]
  rw [← colFilter_reflected v.j_kernel v.cj (edge_extend v.image v.edge) x y p]
  refine sumRange_congr (fun j hj => ?_)
  have hw : (generate2DKernel ([] : List α) v.j_kernel).weight 0 j =
      v.j_kernel.getD (v.j_kernel.length - 1 - j) 0 := by
    simp [generate2DKernel, hlen]
  rw [hw]
  have hx0 : x - (0 : Int) + ((0 : Nat) : Int) = x := by push_cast; ring
  rw [hx0]

/-- With an empty column-factor sequence, tiled rasterization runs a single
horizontal 1D pass and produces the row filter of the edge-extended source
at every pixel of the rectangle and every valid plane. -/
theorem sep_row_rasterize (v : SeparableConvolutionView α) (b : BBox) (x y p : Int)
    (hJ : v.j_kernel = []) (hlen : v.i_kernel.length ≠ 0)
    (hbx1 : b.minx ≤ x) (hbx2 : x < b.minx + b.width)
    (hby1 : b.miny ≤ y) (hby2 : y < b.miny + b.height)
    (hp1 : 0 ≤ p) (hp2 : p < v.image.planes) :
    v.rasterizeAt b x y p = rowFilter v.i_kernel v.ci (edge_extend v.image v.edge) x y p := by
  simp only [SeparableConvolutionView.rasterizeAt, SeparableConvolutionView.rasterizeBuf, hJ]
  have c1 : ¬(v.i_kernel.length = 0 ∧ ([] : List α).length = 0) := by simp [hlen]
  have c2 : ¬(0 < v.i_kernel.length ∧ 0 < ([] : List α).length) := by simp
  have c3 : 0 < v.i_kernel.length := Nat.pos_of_ne_zero hlen
  rw [if_neg c1, if_neg c2, if_pos c3]
  have d1 : (if v.i_kernel.length = 0 then (0 : Int)
      else (v.i_kernel.length : Int) - v.ci - 1) = (v.i_kernel.length : Int) - v.ci - 1 := by
    simp [hlen]
  have d2 : (if ([] : List α).length = 0 then (0 : Int)
      else ((([] : List α).length : Int) - v.cj - 1)) = 0 := rfl
  have d3 : (if v.i_kernel.length = 0 then (0 : Int)
      else ((v.i_kernel.length : Int) - 1)) = (v.i_kernel.length : Int) - 1 := by
    simp [hlen]
  have d4 : (if ([] : List α).length = 0 then (0 : Int)
      else ((([] : List α).length : Int) - 1)) = 0 := rfl
  rw [d1, d2, d3, d4]
  have hconv := convolve_1d_raster_pixel
    (materializeEdge v.image v.edge (BBox.mk (b.minx - ((v.i_kernel.length : Int) - v.ci - 1))
      (b.miny - 0) (b.width + ((v.i_kernel.length : Int) - 1)) (b.height + 0)))
    b.width b.height v.image.planes v.i_kernel (x - b.minx) (y - b.miny) p
    (by omega) (by omega) (by omega) (by omega) hp1 hp2 hp2
  rw [hconv]
  rw [← rowFilter_reflected v.i_kernel v.ci (edge_extend v.image v.edge) x y p]
  refine sumRange_congr (fun i hi => ?_)
  have hi' : (i : Int) < (v.i_kernel.length : Int) := by exact_mod_cast hi
  rw [materializeEdge_pixel v.image v.edge (b.minx - ((v.i_kernel.length : Int) - v.ci - 1))
    (b.miny - 0) (b.width + ((v.i_kernel.length : Int) - 1)) (b.height + 0)
    ((x - b.minx) + (i : Int)) (y - b.miny) p
    (by omega) (by omega) (by omega) (by omega) hp1 hp2]
  have e1 : (b.minx - ((v.i_kernel.length : Int) - v.ci - 1)) + ((x - b.minx) + (i : Int)) =
      x - ((v.i_kernel.length : Int) - 1 - v.ci) + (i : Int) := by ring
  have e2 : (b.miny - (0 : Int)) + (y - b.miny) = y := by ring
  rw [e1, e2]

/-- With an empty row-factor sequence, tiled rasterization runs a single
transposed 1D pass and produces the column filter of the edge-extended
source at every pixel of the rectangle and every valid plane. -/
theorem sep_col_rasterize (v : SeparableConvolutionView α) (b : BBox) (x y p : Int)
    (hI : v.i_kernel = []) (hlen : v.j_kernel.length ≠ 0)
    (hbx1 : b.minx ≤ x) (hbx2 : x < b.minx + b.width)
    (hby1 : b.miny ≤ y) (hby2 : y < b.miny + b.height)
    (hp1 : 0 ≤ p) (hp2 : p < v.image.planes) :
    v.rasterizeAt b x y p = colFilter v.j_kernel v.cj (edge_extend v.image v.edge) x y p := by
  simp only [SeparableConvolutionView.rasterizeAt, SeparableConvolutionView.rasterizeBuf, hI]
  have c1 : ¬(([] : List α).length = 0 ∧ v.j_kernel.length = 0) := by simp [hlen]
  have c2 : ¬(0 < ([] : List α).length ∧ 0 < v.j_kernel.length) := by simp
  have c3 : ¬(0 < ([] : List α).length) := by simp
  rw [if_neg c1, if_neg c2, if_neg c3]
  have d1 : (if ([] : List α).length = 0 then (0 : Int)
      else ((([] : List α).length : Int) - v.ci - 1)) = 0 := rfl
  have d2 : (if v.j_kernel.length = 0 then (0 : Int)
      else (v.j_kernel.length : Int) - v.cj - 1) = (v.j_kernel.length : Int) - v.cj - 1 := by
    simp [hlen]
  have d3 : (if ([] : List α).length = 0 then (0 : Int)
      else ((([] : List α).length : Int) - 1)) = 0 := rfl
  have d4 : (if v.j_kernel.length = 0 then (0 : Int)
      else ((v.j_kernel.length : Int) - 1)) = (v.j_kernel.length : Int) - 1 := by
    simp [hlen]
  rw [d1, d2, d3, d4]
  rw [transposeView_pixel]
  have hconv := convolve_1d_raster_pixel
    (Image.transposeView (materializeEdge v.image v.edge (BBox.mk (b.minx - 0)
      (b.miny - ((v.j_kernel.length : Int) - v.cj - 1)) (b.width + 0)
      (b.height + ((v.j_kernel.length : Int) - 1)))))
    b.height b.width v.image.planes v.j_kernel (y - b.miny) (x - b.minx) p
    (by omega) (by omega) (by omega) (by omega) hp1 hp2 hp2
  rw [hconv]
  rw [← colFilter_reflected v.j_kernel v.cj (edge_extend v.image v.edge) x y p]
  refine sumRange_congr (fun i hi => ?_)
  have hi' : (i : Int) < (v.j_kernel.length : Int) := by exact_mod_cast hi
  rw [transposeView_pixel]
  rw [materializeEdge_pixel v.image v.edge (b.minx - 0)
    (b.miny - ((v.j_kernel.length : Int) - v.cj - 1)) (b.width + 0)
    (b.height + ((v.j_kernel.length : Int) - 1)) (x - b.minx) ((y - b.miny) + (i : Int)) p
    (by omega) (by omega) (by omega) (by omega) hp1 hp2]
  have e1 : (b.minx - (0 : Int)) + (x - b.minx) = x := by ring
  have e2 : (b.miny - ((v.j_kernel.length : Int) - v.cj - 1)) + ((y - b.miny) + (i : Int)) =
      y - ((v.j_kernel.length : Int) - 1 - v.cj) + (i : Int) := by ring
  rw [e1, e2]

/-- C9: for a separable view in which exactly one axis's factor sequence is
empty, the output is the source filtered only by the other axis's 1D
weights (through the edge policy), for both point evaluation and tiled
rasterization — a single 1D pass along the active axis, transposed when
the active axis is the column axis. -/
theorem sep_empty_axis_pass_through (v : SeparableConvolutionView α) (b : BBox)
    (x y p : Int)
    (hbx1 : b.minx ≤ x) (hbx2 : x < b.minx + b.width)
    (hby1 : b.miny ≤ y) (hby2 : y < b.miny + b.height)
    (hp1 : 0 ≤ p) (hp2 : p < v.image.planes) :
    (v.j_kernel = [] → v.i_kernel ≠ [] →
      v.eval x y p = rowFilter v.i_kernel v.ci (edge_extend v.image v.edge) x y p ∧
      v.rasterizeAt b x y p = rowFilter v.i_kernel v.ci (edge_extend v.image v.edge) x y p) ∧
    (v.i_kernel = [] → v.j_kernel ≠ [] →
      v.eval x y p = colFilter v.j_kernel v.cj (edge_extend v.image v.edge) x y p ∧
      v.rasterizeAt b x y p = colFilter v.j_kernel v.cj (edge_extend v.image v.edge) x y p) := by
  constructor
  · intro hJ hI
    have hlen : v.i_kernel.length ≠ 0 := fun h => hI (List.length_eq_zero.mp h)
    exact ⟨sep_row_eval v x y p hJ hlen,
      sep_row_rasterize v b x y p hJ hlen hbx1 hbx2 hby1 hby2 hp1 hp2⟩
  · intro hI hJ
    have hlen : v.j_kernel.length ≠ 0 := fun h => hJ (List.length_eq_zero.mp h)
    exact ⟨sep_col_eval v x y p hI hlen,
      sep_col_rasterize v b x y p hI hlen hbx1 hbx2 hby1 hby2 hp1 hp2⟩

/-- Concrete row-only separable view: row factors `[1, 2]`, no column
factors. -/
def sepRowW : SeparableConvolutionView Int :=
  SeparableConvolutionView.mk onesImage5 [1, 2] [] 0 0 zeroEdge

/-- Concrete column-only separable view: column factors `[1, 2]`, no row
factors, column origin 1. -/
def sepColW : SeparableConvolutionView Int :=
  SeparableConvolutionView.mk onesImage5 [] [1, 2] 0 1 zeroEdge

/-- Witness for C9: both single-axis views evaluated and rasterized at a
concrete pixel of the full-image tile. -/
theorem sep_empty_axis_pass_through_witness :
    (sepRowW.eval 1 3 0 = rowFilter [1, 2] 0 (edge_extend onesImage5 zeroEdge) 1 3 0 ∧
      sepRowW.rasterizeAt (BBox.mk 0 0 5 5) 1 3 0 =
        rowFilter [1, 2] 0 (edge_extend onesImage5 zeroEdge) 1 3 0) ∧
    (sepColW.eval 3 4 0 = colFilter [1, 2] 1 (edge_extend onesImage5 zeroEdge) 3 4 0 ∧
      sepColW.rasterizeAt (BBox.mk 0 0 5 5) 3 4 0 =
        colFilter [1, 2] 1 (edge_extend onesImage5 zeroEdge) 3 4 0) :=
  ⟨(sep_empty_axis_pass_through sepRowW (BBox.mk 0 0 5 5) 1 3 0 (by decide) (by decide)
      (by decide) (by decide) (by decide) (by decide)).1 rfl (by decide),
    (sep_empty_axis_pass_through sepColW (BBox.mk 0 0 5 5) 3 4 0 (by decide) (by decide)
      (by decide) (by decide) (by decide) (by decide)).2 rfl (by decide)⟩
